import Mathlib

/-!
Verification of the incremental-synchronization and interval-reconstruction
core of the mojo_reports repository.

Dates are modelled as integers (day ordinals, as in Python's
`date.toordinal`): adding `n` days is adding `n`, and `d.weekday()` with
Monday = 0 is `(d - 1) % 7`.

The interval reconstructor ("islands and gaps", `src/core/core_load_groups.py`,
`SQL_BUILD_GROUP_STAFF` / `SQL_BUILD_GROUP_STUDENTS`) is embedded as a
single-pass scan over the distinct, sorted observation dates of one partition
key, carrying the running maximum end date of all earlier points
(`prev_run_max`), starting a new segment when
`start_date > prev_run_max + merge_gap_days`, and emitting
`MIN(start_date) .. MAX(end_date)` per segment.
-/

/-- The `MIN` aggregate over a list of dates (0 on the empty list, which never
occurs: SQL groups are nonempty). -/
def listMin : List Int → Int
  | [] => 0
  | d :: rest => rest.foldl min d

/-- The `MAX` aggregate over a list of dates (0 on the empty list, which never
occurs: SQL groups are nonempty). -/
def listMax : List Int → Int
  | [] => 0
  | d :: rest => rest.foldl max d

theorem foldl_min_le_init (l : List Int) (a : Int) : l.foldl min a ≤ a := by
  induction l generalizing a with
  | nil => simp
  | cons h t ih => exact le_trans (ih (min a h)) (min_le_left a h)

theorem foldl_min_le_of_mem {x : Int} (l : List Int) (a : Int) (hx : x ∈ l) :
    l.foldl min a ≤ x := by
  induction l generalizing a with
  | nil => cases hx
  | cons h t ih =>
    rcases List.mem_cons.mp hx with rfl | hx2
    · exact le_trans (foldl_min_le_init t (min a x)) (min_le_right a x)
    · exact ih (min a h) hx2

theorem foldl_min_mem (l : List Int) (a : Int) :
    l.foldl min a = a ∨ l.foldl min a ∈ l := by
  induction l generalizing a with
  | nil => exact Or.inl rfl
  | cons h t ih =>
    rcases ih (min a h) with heq | hmem
    · rcases le_total a h with hle | hle
      · rw [List.foldl_cons, heq, min_eq_left hle]
        exact Or.inl rfl
      · rw [List.foldl_cons, heq, min_eq_right hle]
        exact Or.inr (List.mem_cons_self h t)
    · exact Or.inr (List.mem_cons_of_mem h hmem)

theorem foldl_min_of_le (l : List Int) (a : Int) (h : ∀ x ∈ l, a ≤ x) :
    l.foldl min a = a := by
  induction l with
  | nil => rfl
  | cons hd t ih =>
    rw [List.foldl_cons, min_eq_left (h hd (List.mem_cons_self hd t))]
    exact ih (fun x hx => h x (List.mem_cons_of_mem hd hx))

theorem le_foldl_max_init (l : List Int) (a : Int) : a ≤ l.foldl max a := by
  induction l generalizing a with
  | nil => simp
  | cons h t ih => exact le_trans (le_max_left a h) (ih (max a h))

theorem le_foldl_max_of_mem {x : Int} (l : List Int) (a : Int) (hx : x ∈ l) :
    x ≤ l.foldl max a := by
  induction l generalizing a with
  | nil => cases hx
  | cons h t ih =>
    rcases List.mem_cons.mp hx with rfl | hx2
    · exact le_trans (le_max_right a x) (le_foldl_max_init t (max a x))
    · exact ih (max a h) hx2

theorem foldl_max_mem (l : List Int) (a : Int) :
    l.foldl max a = a ∨ l.foldl max a ∈ l := by
  induction l generalizing a with
  | nil => exact Or.inl rfl
  | cons h t ih =>
    rcases ih (max a h) with heq | hmem
    · rcases le_total a h with hle | hle
      · rw [List.foldl_cons, heq, max_eq_right hle]
        exact Or.inr (List.mem_cons_self h t)
      · rw [List.foldl_cons, heq, max_eq_left hle]
        exact Or.inl rfl
    · exact Or.inr (List.mem_cons_of_mem h hmem)

theorem listMin_le_of_mem {x : Int} {l : List Int} (hx : x ∈ l) :
    listMin l ≤ x := by
  cases l with
  | nil => cases hx
  | cons h t =>
    rcases List.mem_cons.mp hx with rfl | hx2
    · exact foldl_min_le_init t x
    · exact foldl_min_le_of_mem t h hx2

theorem le_listMax_of_mem {x : Int} {l : List Int} (hx : x ∈ l) :
    x ≤ listMax l := by
  cases l with
  | nil => cases hx
  | cons h t =>
    rcases List.mem_cons.mp hx with rfl | hx2
    · exact le_foldl_max_init t x
    · exact le_foldl_max_of_mem t h hx2

theorem listMin_mem {l : List Int} (h : l ≠ []) : listMin l ∈ l := by
  cases l with
  | nil => exact absurd rfl h
  | cons hd t =>
    rcases foldl_min_mem t hd with heq | hmem
    · rw [listMin, heq]; exact List.mem_cons_self hd t
    · exact List.mem_cons_of_mem hd hmem

theorem listMax_mem {l : List Int} (h : l ≠ []) : listMax l ∈ l := by
  cases l with
  | nil => exact absurd rfl h
  | cons hd t =>
    rcases foldl_max_mem t hd with heq | hmem
    · rw [listMax, heq]; exact List.mem_cons_self hd t
    · exact List.mem_cons_of_mem hd hmem

theorem listMin_cons_eq {d : Int} {t : List Int} (h : ∀ x ∈ t, d ≤ x) :
    listMin (d :: t) = d :=
  foldl_min_of_le t d h

theorem listMax_singleton (d : Int) : listMax [d] = d := rfl

theorem listMax_append_singleton (c : Int) (cs : List Int) (d : Int) :
    listMax ((c :: cs) ++ [d]) = max (listMax (c :: cs)) d := by
  simp [listMax, List.foldl_append]

/-- The `ORDER BY` on the distinct observation dates of one partition key:
the window functions of the SQL walk the `SELECT DISTINCT` rows sorted by
`start_date` (equal to the date itself for the point intervals). -/
def sortedDedup (l : List Int) : List Int :=
  List.insertionSort (· ≤ ·) l.dedup

/-- One step of the islands-and-gaps walk over the sorted distinct dates:
`runmax` is `prev_run_max` (the running `MAX(end_date)` over all strictly
earlier rows), `cur` is the segment being accumulated.  A row starts a new
segment when `start_date > prev_run_max + merge_gap_days`
(`is_new = 1` in `marked`); the cumulative sum `seg_id` then groups exactly
the maximal runs of rows with `is_new = 0`, which this function materializes
directly as lists. -/
def segmentsGo (g : Int) (runmax : Int) (cur : List Int) : List Int → List (List Int)
  | [] => [cur]
  | d :: rest =>
    if runmax + g < d then
      cur :: segmentsGo g (max runmax d) [d] rest
    else
      segmentsGo g (max runmax d) (cur ++ [d]) rest

/-- Segments of the sorted distinct dates: the first row has
`prev_run_max IS NULL` and always starts the first segment. -/
def segments (g : Int) : List Int → List (List Int)
  | [] => []
  | d :: rest => segmentsGo g d [d] rest

/-- The full interval reconstructor for one partition key
(`SQL_BUILD_GROUP_STAFF` / `SQL_BUILD_GROUP_STUDENTS`): deduplicate and sort
the observation dates, split into gap-separated segments, and emit
`(MIN(start_date), MAX(end_date))` per `seg_id` group. -/
def buildIntervals (g : Int) (obs : List Int) : List (Int × Int) :=
  (segments g (sortedDedup obs)).map (fun s => (listMin s, listMax s))

theorem segmentsGo_join (g : Int) :
    ∀ (l : List Int) (m : Int) (cur : List Int),
      (segmentsGo g m cur l).flatten = cur ++ l := by
  intro l
  induction l with
  | nil => intro m cur; simp [segmentsGo]
  | cons d rest ih =>
    intro m cur
    by_cases h : m + g < d
    · simp [segmentsGo, h, ih]
    · simp [segmentsGo, h, ih]

theorem segmentsGo_ne_nil (g : Int) :
    ∀ (l : List Int) (m : Int) (cur : List Int), cur ≠ [] →
      ∀ s ∈ segmentsGo g m cur l, s ≠ [] := by
  intro l
  induction l with
  | nil =>
    intro m cur hcur s hs
    simp [segmentsGo] at hs
    exact hs ▸ hcur
  | cons d rest ih =>
    intro m cur hcur s hs
    by_cases h : m + g < d
    · simp only [segmentsGo, if_pos h, List.mem_cons] at hs
      rcases hs with rfl | hs2
      · exact hcur
      · exact ih (max m d) [d] (List.cons_ne_nil d []) s hs2
    · simp only [segmentsGo, if_neg h] at hs
      exact ih (max m d) (cur ++ [d]) (by simp) s hs

theorem segmentsGo_head (g : Int) :
    ∀ (l : List Int) (m : Int) (cur : List Int),
      ∃ t tail, segmentsGo g m cur l = (cur ++ t) :: tail ∧ ∀ x ∈ t, x ∈ l := by
  intro l
  induction l with
  | nil =>
    intro m cur
    exact ⟨[], [], by simp [segmentsGo], by simp⟩
  | cons d rest ih =>
    intro m cur
    by_cases h : m + g < d
    · exact ⟨[], segmentsGo g (max m d) [d] rest, by simp [segmentsGo, h], by simp⟩
    · obtain ⟨t, tail, heq, hsub⟩ := ih (max m d) (cur ++ [d])
      refine ⟨d :: t, tail, ?_, ?_⟩
      · simp only [segmentsGo, if_neg h, heq, List.append_assoc, List.singleton_append]
      · intro x hx
        rcases List.mem_cons.mp hx with rfl | hx2
        · exact List.mem_cons_self x rest
        · exact List.mem_cons_of_mem d (hsub x hx2)

theorem segmentsGo_pairwise (g : Int) :
    ∀ (l : List Int) (m : Int) (cur : List Int),
      (cur ++ l).Pairwise (· < ·) →
      (segmentsGo g m cur l).Pairwise (fun s t => ∀ a ∈ s, ∀ b ∈ t, a < b) := by
  intro l
  induction l with
  | nil =>
    intro m cur _
    simp [segmentsGo]
  | cons d rest ih =>
    intro m cur hsort
    have hdrest : (d :: rest).Pairwise (· < ·) :=
      hsort.sublist (List.sublist_append_right cur (d :: rest))
    by_cases h : m + g < d
    · simp only [segmentsGo, if_pos h]
      refine List.pairwise_cons.mpr ⟨?_, ?_⟩
      · intro t2 ht2 a ha b hb
        have hbmem : b ∈ (segmentsGo g (max m d) [d] rest).flatten :=
          List.mem_flatten.mpr ⟨t2, ht2, hb⟩
        rw [segmentsGo_join] at hbmem
        have hcross := (List.pairwise_append.mp hsort).2.2
        exact hcross a ha b (by simpa using hbmem)
      · exact ih (max m d) [d] (by simpa using hdrest)
    · simp only [segmentsGo, if_neg h]
      apply ih (max m d) (cur ++ [d])
      simpa [List.append_assoc] using hsort

/-- The full relationship between two adjacent segments of one partition key,
relative to the complete sorted distinct date list `total`: the aggregate
bounds are themselves observations, segments only hold observations, adjacent
segments are separated by more than the gap tolerance, and no observation
falls strictly inside the separating gap. -/
def segRel (g : Int) (total : List Int) (s t : List Int) : Prop :=
  listMax s ∈ s ∧ listMin t ∈ t ∧
  (∀ x ∈ s, x ∈ total) ∧ (∀ x ∈ t, x ∈ total) ∧
  listMax s + g < listMin t ∧
  ∀ x ∈ total, ¬(listMax s < x ∧ x < listMin t)

theorem segmentsGo_chain (g : Int) (total : List Int)
    (htot : total.Pairwise (· < ·)) :
    ∀ (l cur prevs : List Int), cur ≠ [] →
      total = prevs ++ (cur ++ l) →
      List.Chain' (segRel g total) (segmentsGo g (listMax cur) cur l) := by
  intro l
  induction l with
  | nil =>
    intro cur prevs hcur htoteq
    exact List.chain'_singleton cur
  | cons d rest ih =>
    intro cur prevs hcur htoteq
    have htot2 : (prevs ++ (cur ++ d :: rest)).Pairwise (· < ·) := htoteq ▸ htot
    have hcl : (cur ++ d :: rest).Pairwise (· < ·) :=
      htot2.sublist (List.sublist_append_right prevs _)
    have hcross : ∀ a ∈ cur, ∀ b ∈ d :: rest, a < b :=
      (List.pairwise_append.mp hcl).2.2
    have hdrest : (d :: rest).Pairwise (· < ·) := (List.pairwise_append.mp hcl).2.1
    have hdlt : ∀ x ∈ rest, d < x := (List.pairwise_cons.mp hdrest).1
    have hmaxcur : listMax cur ∈ cur := listMax_mem hcur
    have hmd : listMax cur < d := hcross _ hmaxcur d (List.mem_cons_self d rest)
    by_cases hb : listMax cur + g < d
    · rw [show segmentsGo g (listMax cur) cur (d :: rest)
            = cur :: segmentsGo g (max (listMax cur) d) [d] rest from by
        simp [segmentsGo, hb]]
      rw [max_eq_right hmd.le]
      obtain ⟨t, tail, hgo, htsub⟩ := segmentsGo_head g rest d [d]
      have hrec : List.Chain' (segRel g total) (segmentsGo g (listMax [d]) [d] rest) := by
        apply ih [d] (prevs ++ cur) (List.cons_ne_nil d [])
        rw [htoteq]; simp
      rw [listMax_singleton] at hrec
      rw [hgo, List.singleton_append] at hrec ⊢
      refine List.chain'_cons.mpr ⟨?_, hrec⟩
      have hdt : ∀ x ∈ t, d ≤ x := fun x hx => (hdlt x (htsub x hx)).le
      have hmin : listMin (d :: t) = d := listMin_cons_eq hdt
      refine ⟨hmaxcur, ?_, ?_, ?_, ?_, ?_⟩
      · rw [hmin]; exact List.mem_cons_self d t
      · intro x hx; rw [htoteq]; simp [hx]
      · intro x hx
        rcases List.mem_cons.mp hx with rfl | hx2
        · rw [htoteq]; simp
        · have hxr : x ∈ rest := htsub x hx2
          rw [htoteq]; simp [hxr]
      · rw [hmin]; exact hb
      · rw [hmin]
        intro x hxtot hcontra
        obtain ⟨h1, h2⟩ := hcontra
        rw [htoteq] at hxtot
        rcases List.mem_append.mp hxtot with hxp | hxcl
        · have hxlt : x < listMax cur :=
            (List.pairwise_append.mp htot2).2.2 x hxp (listMax cur)
              (List.mem_append_left _ hmaxcur)
          exact absurd h1 (not_lt.mpr hxlt.le)
        · rcases List.mem_append.mp hxcl with hxc | hxdr
          · exact absurd h1 (not_lt.mpr (le_listMax_of_mem hxc))
          · rcases List.mem_cons.mp hxdr with rfl | hxr
            · exact absurd h2 (lt_irrefl x)
            · exact absurd h2 (not_lt.mpr (hdlt x hxr).le)
    · rw [show segmentsGo g (listMax cur) cur (d :: rest)
            = segmentsGo g (max (listMax cur) d) (cur ++ [d]) rest from by
        simp [segmentsGo, hb]]
      obtain ⟨c, cs, rfl⟩ : ∃ c cs, cur = c :: cs := by
        cases cur with
        | nil => exact absurd rfl hcur
        | cons c cs => exact ⟨c, cs, rfl⟩
      rw [← listMax_append_singleton c cs d]
      apply ih ((c :: cs) ++ [d]) prevs (by simp)
      rw [htoteq]; simp

theorem segments_flatten (g : Int) (D : List Int) :
    (segments g D).flatten = D := by
  cases D with
  | nil => rfl
  | cons d rest => simpa [segments] using segmentsGo_join g rest d [d]

theorem segments_ne_nil (g : Int) (D : List Int) :
    ∀ s ∈ segments g D, s ≠ [] := by
  cases D with
  | nil => intro s hs; simp [segments] at hs
  | cons d rest => exact segmentsGo_ne_nil g rest d [d] (List.cons_ne_nil d [])

theorem segments_pairwise (g : Int) (D : List Int) (hD : D.Pairwise (· < ·)) :
    (segments g D).Pairwise (fun s t => ∀ a ∈ s, ∀ b ∈ t, a < b) := by
  cases D with
  | nil => simp [segments]
  | cons d rest => exact segmentsGo_pairwise g rest d [d] (by simpa using hD)

theorem segments_chain (g : Int) (D : List Int) (hD : D.Pairwise (· < ·)) :
    List.Chain' (segRel g D) (segments g D) := by
  cases D with
  | nil => simp [segments]
  | cons d rest =>
    have h := segmentsGo_chain g (d :: rest) hD rest [d] [] (List.cons_ne_nil d [])
      (by simp)
    rw [listMax_singleton] at h
    exact h

theorem mem_sortedDedup {x : Int} {l : List Int} : x ∈ sortedDedup l ↔ x ∈ l := by
  unfold sortedDedup
  rw [(List.perm_insertionSort _ _).mem_iff, List.mem_dedup]

theorem pairwise_lt_of_le_nodup :
    ∀ (l : List Int), l.Pairwise (· ≤ ·) → l.Nodup → l.Pairwise (· < ·) := by
  intro l
  induction l with
  | nil => intro _ _; exact List.Pairwise.nil
  | cons a t ih =>
    intro hle hnd
    rw [List.pairwise_cons] at hle ⊢
    rw [List.nodup_cons] at hnd
    refine ⟨fun b hb => lt_of_le_of_ne (hle.1 b hb) ?_, ih hle.2 hnd.2⟩
    intro heq
    exact hnd.1 (heq ▸ hb)

theorem sortedDedup_pairwise (l : List Int) :
    (sortedDedup l).Pairwise (· < ·) := by
  apply pairwise_lt_of_le_nodup
  · exact List.sorted_insertionSort _ _
  · exact ((List.perm_insertionSort _ _).nodup_iff).mpr (List.nodup_dedup l)

/-- C1: Gap-merge correctness of the interval reconstructor.  For every
finite set of observation dates (given as an arbitrary list `obs`, whose set
of elements is `D`) and every non-negative gap tolerance `g`, the intervals
produced by the islands-and-gaps pass satisfy: (a) every date in `D` is
contained in exactly one interval; (b) any two consecutive intervals
`[a,b]`, `[c,d]` satisfy `c - b > g`; (c) adjacent intervals cannot be
merged legally: the endpoints facing the separating gap are themselves
observations, and no observation falls strictly inside the gap (which by (b)
exceeds the tolerance). -/
theorem gap_merge_correct (g : Int) (obs : List Int) (hg : 0 ≤ g) :
    (∀ x ∈ obs, ∃! p : Int × Int, p ∈ buildIntervals g obs ∧ p.1 ≤ x ∧ x ≤ p.2) ∧
    List.Chain' (fun p q : Int × Int => g < q.1 - p.2) (buildIntervals g obs) ∧
    List.Chain' (fun p q : Int × Int =>
      p.2 ∈ obs ∧ q.1 ∈ obs ∧ ∀ x ∈ obs, ¬(p.2 < x ∧ x < q.1))
      (buildIntervals g obs) := by
  have hD : (sortedDedup obs).Pairwise (· < ·) := sortedDedup_pairwise obs
  have hchain := segments_chain g (sortedDedup obs) hD
  have hflat := segments_flatten g (sortedDedup obs)
  have hne := segments_ne_nil g (sortedDedup obs)
  have hpw := segments_pairwise g (sortedDedup obs) hD
  refine ⟨?_, ?_, ?_⟩
  · intro x hx
    have hxD : x ∈ sortedDedup obs := mem_sortedDedup.mpr hx
    have hxflat : x ∈ (segments g (sortedDedup obs)).flatten := by
      rw [hflat]; exact hxD
    obtain ⟨s, hs, hxs⟩ := List.mem_flatten.mp hxflat
    refine ⟨(listMin s, listMax s),
      ⟨List.mem_map_of_mem _ hs, listMin_le_of_mem hxs, le_listMax_of_mem hxs⟩, ?_⟩
    rintro q ⟨hqmem, hq1, hq2⟩
    obtain ⟨t, ht, rfl⟩ := List.mem_map.mp hqmem
    simp only at hq1 hq2
    by_cases hst : t = s
    · rw [hst]
    · have hsym : Symmetric (fun u v : List Int =>
          (∀ a ∈ u, ∀ b ∈ v, a < b) ∨ (∀ a ∈ v, ∀ b ∈ u, a < b)) :=
        fun u v h => h.symm
    
      have hpw2 : (segments g (sortedDedup obs)).Pairwise (fun u v =>
          (∀ a ∈ u, ∀ b ∈ v, a < b) ∨ (∀ a ∈ v, ∀ b ∈ u, a < b)) :=
        hpw.imp (fun h => Or.inl h)
      have hor := hpw2.forall hsym ht hs hst
      rcases hor with hts | hst2
      · have hlt : listMax t < x := hts _ (listMax_mem (hne t ht)) x hxs
        exact absurd hq2 (not_le.mpr hlt)
      · have hlt : x < listMin t := hst2 x hxs _ (listMin_mem (hne t ht))
        exact absurd hq1 (not_le.mpr hlt)
  · unfold buildIntervals
    rw [List.chain'_map]
    refine hchain.imp ?_
    intro s t hrel
    obtain ⟨_, _, _, _, hgap, _⟩ := hrel
    simp only
    omega
  · unfold buildIntervals
    rw [List.chain'_map]
    refine hchain.imp ?_
    intro s t hrel
    obtain ⟨hmaxmem, hminmem, hsubs, hsubt, _, hbetween⟩ := hrel
    simp only
    refine ⟨mem_sortedDedup.mp (hsubs _ hmaxmem),
      mem_sortedDedup.mp (hsubt _ hminmem), ?_⟩
    intro x hxobs hcon
    exact hbetween x (mem_sortedDedup.mpr hxobs) hcon

/-- Witness for C1: the theorem applied at the concrete tolerance 14 and a
concrete observation list. -/
theorem gap_merge_correct_witness :
    (0 : Int) ≤ 14 ∧
    ((∀ x ∈ [(5 : Int), 30], ∃! p : Int × Int,
        p ∈ buildIntervals 14 [5, 30] ∧ p.1 ≤ x ∧ x ≤ p.2) ∧
     List.Chain' (fun p q : Int × Int => 14 < q.1 - p.2) (buildIntervals 14 [5, 30]) ∧
     List.Chain' (fun p q : Int × Int =>
       p.2 ∈ [(5 : Int), 30] ∧ q.1 ∈ [(5 : Int), 30] ∧
       ∀ x ∈ [(5 : Int), 30], ¬(p.2 < x ∧ x < q.1))
       (buildIntervals 14 [5, 30])) :=
  ⟨by decide, gap_merge_correct 14 [5, 30] (by decide)⟩

/-- Cumulative days of 2025 (a non-leap year) before each month, so that
`date2025 m d` is a day ordinal consistent with calendar day arithmetic
within 2025. -/
def daysBeforeMonth2025 (m : Nat) : Int :=
  match m with
  | 1 => 0 | 2 => 31 | 3 => 59 | 4 => 90 | 5 => 120 | 6 => 151
  | 7 => 181 | 8 => 212 | 9 => 243 | 10 => 273 | 11 => 304 | 12 => 334
  | _ => 0

/-- Day ordinal (within 2025) of the calendar date `2025-m-d`. -/
def date2025 (m d : Nat) : Int :=
  daysBeforeMonth2025 m + d

/-- C2: with `gap_tolerance_days = 14`, the observation dates 2025-09-01,
2025-09-03, 2025-09-20, 2025-10-10 of one partition key reconstruct to
exactly the three intervals `[2025-09-01, 2025-09-03]`,
`[2025-09-20, 2025-09-20]`, `[2025-10-10, 2025-10-10]`. -/
theorem gap_merge_example :
    buildIntervals 14 [date2025 9 1, date2025 9 3, date2025 9 20, date2025 10 10] =
      [(date2025 9 1, date2025 9 3), (date2025 9 20, date2025 9 20),
       (date2025 10 10, date2025 10 10)] := by
  decide

/-- C8: order-independence of the interval reconstruction: feeding the same
multiset of observation dates (duplicates included) in any order yields the
same final interval set, because the pass works on the deduplicated, sorted
dates. -/
theorem buildIntervals_perm (g : Int) (l1 l2 : List Int) (h : l1.Perm l2) :
    buildIntervals g l1 = buildIntervals g l2 := by
  unfold buildIntervals
  have hd : sortedDedup l1 = sortedDedup l2 := by
    unfold sortedDedup
    have hs1 : List.Sorted (· ≤ ·) (List.insertionSort (· ≤ ·) l1.dedup) :=
      List.sorted_insertionSort _ _
    have hs2 : List.Sorted (· ≤ ·) (List.insertionSort (· ≤ ·) l2.dedup) :=
      List.sorted_insertionSort _ _
    exact List.eq_of_perm_of_sorted
      ((List.perm_insertionSort _ _).trans ((h.dedup).trans
        (List.perm_insertionSort _ _).symm)) hs1 hs2
  rw [hd]

/-- Witness for C8: the theorem applied to a concrete permutation with a
duplicated date. -/
theorem buildIntervals_perm_witness :
    buildIntervals 14 [30, 5, 5] = buildIntervals 14 [5, 30, 5] :=
  buildIntervals_perm 14 [30, 5, 5] [5, 30, 5] (List.Perm.swap 5 30 [5])

/-- Model of `core_common.set_core_checkpoint` on the stored
`(window_from, window_to)` pair of the `core:orchestrator` row (`none` when
the row does not exist yet; each field nullable).  The SQL inserts
`(wto, wto)` or, on conflict, stores
`LEAST(COALESCE(old_from, new), new)` / `GREATEST(COALESCE(old_to, new), new)`. -/
def set_core_checkpoint (st : Option (Option Int × Option Int)) (wto : Int) :
    Option Int × Option Int :=
  match st with
  | none => (some wto, some wto)
  | some (oldFrom, oldTo) =>
      (some (match oldFrom with | none => wto | some f => min f wto),
       some (match oldTo with | none => wto | some t => max t wto))

/-- Model of `core_etl.core_init_if_empty`: it passes `d_to = today` to
`set_core_checkpoint`. -/
def init_if_empty_checkpoint (today : Int) : Int := today

/-- Model of `core_etl.core_weekly_deep`: it passes `d_to = today` to
`set_core_checkpoint`. -/
def weekly_deep_checkpoint (today : Int) : Int := today

/-- Model of `core_etl.core_run_auto._clamp_to_today`: `(f, t if t <= today else today)`. -/
def clamp_to_today (today : Int) (w : Int × Int) : Int × Int :=
  (w.1, if w.2 ≤ today then w.2 else today)

/-- The checkpoint value written by `core_etl.core_run_auto`: `today` when no
raw endpoint changed, otherwise `min(max(clamped window tos), today)`. -/
def auto_checkpoint (today : Int) (changed : List (Int × Int)) : Int :=
  match changed with
  | [] => today
  | w :: ws =>
      min (listMax ((w :: ws).map (fun x => (clamp_to_today today x).2))) today

/-- Model of `core_etl.main` in legacy `init` mode with explicit bounds: the checkpoint
value written is the user-supplied `d_to`, unvalidated against `today`. -/
def legacy_init_checkpoint (dTo : Int) : Int := dTo

/-- Model of `core_etl.main` in legacy `backfill` mode: the checkpoint value written is
the user-supplied `d_to`, validated only as `d_from <= d_to`. -/
def legacy_backfill_checkpoint (dTo : Int) : Int := dTo

/-- Model of `core_common.validate_window_or_throw`: it succeeds iff `d_from <= d_to`. -/
def valid_window (f t : Int) : Bool := f ≤ t

/-- C3 counterexample: with `today = 100`, legacy backfill with
`--date-from 101 --date-to 101` passes window validation, writes checkpoint
101, and the stored `window_to` (101) exceeds today (100) — refuting the
claim that the stored `window_to` never exceeds the current date in every
mode including legacy backfill with explicit bounds. -/
theorem core_checkpoint_future_counterexample :
    valid_window 101 101 = true ∧
    (set_core_checkpoint none (legacy_backfill_checkpoint 101)).2 = some 101 ∧
    ¬((101 : Int) ≤ 100) := by
  refine ⟨rfl, rfl, by decide⟩

/-- C3 (amended): every checkpoint write stores
`LEAST(old_from, new)` / `GREATEST(old_to, new)`, so the stored `window_from`
is non-increasing and the stored `window_to` is non-decreasing; the stored
`window_to` stays bounded by `today` whenever the previous value was, for the
values written by the auto/daily, init-if-empty and weekly-deep modes (which
never exceed `today`) — but not for the legacy init/backfill modes, which
write a caller-supplied date. -/
theorem core_checkpoint_monotone (f t wto today : Int) (changed : List (Int × Int))
    (hto : t ≤ today) (hwto : wto ≤ today) :
    (set_core_checkpoint (some (some f, some t)) wto).1 = some (min f wto) ∧
    (set_core_checkpoint (some (some f, some t)) wto).2 = some (max t wto) ∧
    min f wto ≤ f ∧ t ≤ max t wto ∧ max t wto ≤ today ∧
    init_if_empty_checkpoint today ≤ today ∧
    weekly_deep_checkpoint today ≤ today ∧
    auto_checkpoint today changed ≤ today := by
  refine ⟨rfl, rfl, min_le_left f wto, le_max_left t wto, max_le hto hwto,
    le_refl today, le_refl today, ?_⟩
  cases changed with
  | nil => exact le_refl today
  | cons w ws => exact min_le_right _ today

/-- Witness for C3: the amended theorem applied at a concrete state. -/
theorem core_checkpoint_monotone_witness :
    ((10 : Int) ≤ 12 ∧ (7 : Int) ≤ 12) ∧
    ((set_core_checkpoint (some (some 5, some 10)) 7).1 = some (min 5 7) ∧
     (set_core_checkpoint (some (some 5, some 10)) 7).2 = some (max 10 7) ∧
     min (5 : Int) 7 ≤ 5 ∧ (10 : Int) ≤ max 10 7 ∧ max (10 : Int) 7 ≤ 12 ∧
     init_if_empty_checkpoint 12 ≤ 12 ∧
     weekly_deep_checkpoint 12 ≤ 12 ∧
     auto_checkpoint 12 [(1, 20)] ≤ 12) :=
  ⟨⟨by decide, by decide⟩,
   core_checkpoint_monotone 5 10 7 12 [(1, 20)] (by decide) (by decide)⟩

/-- Default of `CONFIG["api"]["windows"]["attendance_days_back"]`. -/
def attendance_days_back : Int := 2

/-- The daily window of the raw fact loaders
(`load_attendance.run_daily`, `load_marks_current.run_daily`):
`d_from = today - days_back`, `d_to = today`. -/
def run_daily_window (today days_back : Int) : Int × Int :=
  (today - days_back, today)

/-- Model of `core_common.compute_daily_window`:
`d_from = today - timedelta(days=days_back - 1)`, `d_to = today`. -/
def compute_daily_window (today days_back : Int) : Int × Int :=
  (today - (days_back - 1), today)

/-- Model of `core_load_attendance._window_for_mode` in daily mode:
`compute_daily_window(days_back=14)`. -/
def core_attendance_daily_window (today : Int) : Int × Int :=
  compute_daily_window today 14

/-- C4 counterexample: the core-layer daily re-check window at `today = 100`
with `days_back = 14` is `[87, 100]` (14 days inclusive), not
`[today - 14, today] = [86, 100]` as the claim states. -/
theorem daily_window_counterexample :
    compute_daily_window 100 14 ≠ (100 - 14, 100) := by
  decide

/-- C4 (amended): the raw fast-changing-fact daily window is
`[today - days_back, today]` with `days_back` defaulting to 2, while the
core-layer daily re-check window is `[today - (days_back - 1), today]`
with `days_back = 14`, i.e. the last 14 days inclusive `[today - 13, today]`. -/
theorem daily_window_shape (today : Int) :
    run_daily_window today attendance_days_back = (today - 2, today) ∧
    core_attendance_daily_window today = (today - 13, today) := by
  refine ⟨rfl, ?_⟩
  unfold core_attendance_daily_window compute_daily_window
  norm_num

/-- Endpoint names tracked in `core.sync_state`, as read by the
orchestrators (`RAW_ENDPOINTS` of `core_etl.py` plus the orchestrator's own
checkpoint entry and other core entries). -/
inductive EndpointName
  | attendance
  | marksCurrent
  | marksFinal
  | schedule
  | coreOrchestrator
  | coreOther (n : Nat)
deriving DecidableEq

/-- Model of `core_etl.RAW_ENDPOINTS`. -/
def RAW_ENDPOINTS : List EndpointName :=
  [.attendance, .marksCurrent, .marksFinal, .schedule]

/-- A row of `core.sync_state` as consumed by `_read_recent_raw_windows`. -/
structure SyncRow where
  endpoint : EndpointName
  window_from : Option Int
  window_to : Option Int
  last_successful_sync_at : Int
deriving DecidableEq

/-- The checkpoint normalization of `core_etl.core_run_auto`:
`if last_cp and last_cp > today: last_cp = today`. -/
def clamp_checkpoint (today : Int) (cp : Option Int) : Option Int :=
  match cp with
  | none => none
  | some c => if today < c then some today else some c

/-- The row filter of `core_etl._read_recent_raw_windows`: raw endpoints
whose `last_successful_sync_at` is strictly newer than the checkpoint (no
time filter when the checkpoint is absent). -/
def recent_raw_filter (since : Option Int) (rows : List SyncRow) : List SyncRow :=
  rows.filter (fun r =>
    RAW_ENDPOINTS.contains r.endpoint &&
    match since with
    | none => true
    | some s => decide (s < r.last_successful_sync_at))

/-- C6: if the stored core checkpoint is strictly in the future, the next
auto/daily run clamps it to `today` and scans for changed raw endpoints
since `today`; the clamp is a total function of the stored value (the
condition is handled by clamping, never by failing the run). -/
theorem future_checkpoint_clamp (today cp : Int) (rows : List SyncRow)
    (h : today < cp) :
    clamp_checkpoint today (some cp) = some today ∧
    recent_raw_filter (clamp_checkpoint today (some cp)) rows =
      recent_raw_filter (some today) rows := by
  have hc : clamp_checkpoint today (some cp) = some today := by
    simp [clamp_checkpoint, h]
  exact ⟨hc, by rw [hc]⟩

/-- Witness for C6: the theorem applied to a concrete future checkpoint. -/
theorem future_checkpoint_clamp_witness :
    (10 : Int) < 11 ∧
    (clamp_checkpoint 10 (some 11) = some 10 ∧
     recent_raw_filter (clamp_checkpoint 10 (some 11)) [] =
       recent_raw_filter (some 10) []) :=
  ⟨by decide, future_checkpoint_clamp 10 11 [] (by decide)⟩

/-- The two fatal input-validation outcomes of `core_etl.main` in backfill
mode: missing bound (`SystemExit`) and inverted window (`ValueError` from
`validate_window_or_throw`). -/
inductive ConfigError
  | missingBounds
  | invalidWindow
deriving DecidableEq

/-- Observable effects of a core orchestrator run, in program order:
acquiring the advisory lock, running the transform passes (which write the
Fact Store and the Ledger), and writing the checkpoint. -/
inductive CoreEffect
  | acquireLock
  | runTransforms
  | writeCheckpoint (d : Int)
deriving DecidableEq

/-- Model of `core_etl.main` in backfill mode, as the trace of effects it performs:
bounds are checked (both present, then `d_from <= d_to`) before
`advisory_lock(CORE_LOCK_KEY)` is entered and before any transform or
checkpoint write; an error outcome therefore carries no effects at all. -/
def core_main_backfill (d_from d_to : Option Int) :
    Except ConfigError (List CoreEffect) :=
  match d_from, d_to with
  | some f, some t =>
      if t < f then Except.error ConfigError.invalidWindow
      else Except.ok [CoreEffect.acquireLock, CoreEffect.runTransforms,
                      CoreEffect.writeCheckpoint t]
  | _, _ => Except.error ConfigError.missingBounds

/-- C7: invoking the core orchestrator in backfill mode with a missing bound
or an inverted window terminates with a configuration error; the effect
trace shows this happens before the run lock is acquired and before any
write, leaving all stored state unchanged. -/
theorem backfill_bounds_validation (d_from d_to : Option Int)
    (h : d_from = none ∨ d_to = none ∨
         ∃ f t, d_from = some f ∧ d_to = some t ∧ t < f) :
    ∃ e, core_main_backfill d_from d_to = Except.error e := by
  cases d_from with
  | none =>
    cases d_to with
    | none => exact ⟨ConfigError.missingBounds, rfl⟩
    | some t => exact ⟨ConfigError.missingBounds, rfl⟩
  | some f =>
    cases d_to with
    | none => exact ⟨ConfigError.missingBounds, rfl⟩
    | some t =>
      rcases h with h1 | h2 | ⟨f2, t2, hf, ht, hlt⟩
      · cases h1
      · cases h2
      · obtain rfl : f2 = f := by injection hf with h; exact h.symm
        obtain rfl : t2 = t := by injection ht with h; exact h.symm
        refine ⟨ConfigError.invalidWindow, ?_⟩
        simp [core_main_backfill, hlt]

/-- Witness for C7: the theorem applied to a missing `date_from`. -/
theorem backfill_bounds_validation_witness :
    ((none : Option Int) = none ∨ (some (5 : Int) : Option Int) = none ∨
      ∃ f t, (none : Option Int) = some f ∧
        (some (5 : Int) : Option Int) = some t ∧ t < f) ∧
    ∃ e, core_main_backfill none (some 5) = Except.error e :=
  ⟨Or.inl rfl, backfill_bounds_validation none (some 5) (Or.inl rfl)⟩

/-- A row of `core.sync_state` as written by the raw loaders through
`base_loader.upsert_sync_state`. -/
structure RawSyncRow where
  window_from : Option Int
  window_to : Option Int
  last_seen_updated_at : Option Int
deriving DecidableEq

/-- Model of `base_loader.upsert_sync_state`: `ON CONFLICT (endpoint) DO UPDATE SET
window_from = EXCLUDED.window_from, window_to = EXCLUDED.window_to, ...` —
the supplied values unconditionally replace the previous row. -/
def upsert_sync_state (old : Option RawSyncRow)
    (window_from window_to last_seen : Option Int) : RawSyncRow :=
  { window_from := window_from
    window_to := window_to
    last_seen_updated_at := last_seen }

/-- Model of `raw_orchestrator._last_window_to`: the recorded `window_to` of an
endpoint's row, if any. -/
def last_window_to (row : Option RawSyncRow) : Option Int :=
  match row with
  | none => none
  | some r => r.window_to

/-- C9: raw ledger writes are last-write-wins, not monotonic: after
`upsert_sync_state` the stored window bounds equal exactly the supplied
values regardless of the previous row, so the recorded `window_to` that
`_last_window_to` reads can move backwards (here from 100 down to 90). -/
theorem raw_ledger_last_write_wins (old : Option RawSyncRow)
    (wf wt ls : Option Int) :
    (upsert_sync_state old wf wt ls).window_from = wf ∧
    (upsert_sync_state old wf wt ls).window_to = wt ∧
    last_window_to
        (some (upsert_sync_state (some ⟨some 0, some 100, none⟩)
          (some 88) (some 90) none)) = some 90 ∧
    (90 : Int) < 100 :=
  ⟨rfl, rfl, rfl, by decide⟩

/-- Model of `raw_orchestrator._date_range`: the inclusive day list `d_from..d_to`. -/
def date_range (d_from d_to : Int) : List Int :=
  (List.range (d_to + 1 - d_from).toNat).map (fun (i : Nat) => d_from + (i : Int))

theorem mem_date_range {d_from d_to x : Int} :
    x ∈ date_range d_from d_to ↔ d_from ≤ x ∧ x ≤ d_to := by
  unfold date_range
  rw [List.mem_map]
  constructor
  · rintro ⟨i, hi, rfl⟩
    rw [List.mem_range] at hi
    omega
  · rintro ⟨h1, h2⟩
    refine ⟨(x - d_from).toNat, ?_, ?_⟩
    · rw [List.mem_range]
      omega
    · omega

/-- Model of `raw_orchestrator._run_daily_windows_and_recovery`:
`safety_gap = max(attendance_back, 2)`. -/
def safety_gap (attendance_back : Int) : Int := max attendance_back 2

/-- Model of `recover_days` in `raw_orchestrator._run_daily_windows_and_recovery` for a
day-granularity endpoint: when the endpoint's last recorded `window_to`
trails today by more than the safety gap, the missing day list is
`last_to + 1 .. today`; otherwise (or when there is no recorded window)
nothing is recovered. -/
def recover_days (today : Int) (last_to : Option Int) (gap : Int) : List Int :=
  match last_to with
  | none => []
  | some lto =>
      if lto ≤ today - (gap + 1) then date_range (lto + 1) today else []

/-- Python `date.weekday()` (Monday = 0) on the day-ordinal model. -/
def weekday (d : Int) : Int := (d - 1) % 7

/-- Model of `raw_orchestrator._monday_of` / `load_schedule.monday_of`. -/
def monday_of (d : Int) : Int := d - weekday d

/-- Model of `load_schedule.week_range`: the Monday..Sunday week containing `d`. -/
def week_range (d : Int) : Int × Int := (monday_of d, monday_of d + 6)

/-- Model of `raw_orchestrator._mondays_between`: the Mondays from
`monday_of d_from` to `monday_of d_to`, stepping 7 days. -/
def mondays_between (d_from d_to : Int) : List Int :=
  (List.range (((monday_of d_to - monday_of d_from) / 7) + 1).toNat).map
    (fun (i : Nat) => monday_of d_from + 7 * (i : Int))

/-- The windowed raw endpoints covered by the daily-plus-recovery pass
(`att`, `mc`, `mf`, `sch` in `_run_daily_windows_and_recovery`). -/
inductive RawEndpoint
  | attendance
  | marksCurrent
  | marksFinal
  | schedule
deriving DecidableEq

/-- The loop `for ep in (att.ENDPOINT, mc.ENDPOINT, mf.ENDPOINT, sch.ENDPOINT)`. -/
def windowed_endpoints : List RawEndpoint :=
  [.attendance, .marksCurrent, .marksFinal, .schedule]

/-- Whether day `d` is fetched for endpoint `ep` by the combined
daily-plus-recovery pass, given the endpoint's recorded `window_to`:
attendance and current marks fetch the daily window
`[today - attendance_days_back, today]` plus the recovered day list; final
marks fetch the complete upstream set daily (`fetch_all_finals`, no
server-side date filter); schedule fetches the current week daily plus the
full Monday..Sunday week of every Monday in the recovered range. -/
def endpoint_covers (ep : RawEndpoint) (today : Int) (last_to : Option Int)
    (d : Int) : Bool :=
  match ep with
  | .attendance | .marksCurrent =>
      (decide ((run_daily_window today attendance_days_back).1 ≤ d) &&
       decide (d ≤ (run_daily_window today attendance_days_back).2)) ||
      (recover_days today last_to (safety_gap attendance_days_back)).contains d
  | .marksFinal =>
      true ||
      (recover_days today last_to (safety_gap attendance_days_back)).contains d
  | .schedule =>
      (decide ((week_range today).1 ≤ d) && decide (d ≤ (week_range today).2)) ||
      (match last_to with
       | none => false
       | some lto =>
           if lto ≤ today - (safety_gap attendance_days_back + 1) then
             (mondays_between (lto + 1) today).any
               (fun m => decide (m ≤ d) && decide (d ≤ m + 6))
           else false)

/-- C5 counterexample: with `today = 100` and a ledger `window_to` of
`today - 10 = 90`, the day 90 itself is in neither the attendance daily
window `[98, 100]` nor the synthesized backfill day list `[91..100]`
(recovery starts at `window_to + 1`), refuting coverage of all of
`[today - 10, today]` as claimed. -/
theorem recovery_completeness_counterexample :
    endpoint_covers RawEndpoint.attendance 100 (some 90) 90 = false := by
  decide

/-- C5 (amended): with a ledger `window_to` of `today - 10`, safety gap 2 and
daily `days_back` 2, the combined daily-plus-recovery pass covers every day
in `(today - 10, today] = [today - 9, today]` for every windowed endpoint —
the days strictly after the recorded `window_to` (that day itself was
already covered by the pass that recorded it); for the schedule endpoint the
coverage is by the fetched Monday..Sunday weeks of the synthesized Monday
list rather than by a day list. -/
theorem recovery_completeness (today d : Int)
    (h1 : today - 9 ≤ d) (h2 : d ≤ today) :
    ∀ ep ∈ windowed_endpoints,
      endpoint_covers ep today (some (today - 10)) d = true := by
  intro ep _
  have hcond : today - 10 ≤ today - (safety_gap attendance_days_back + 1) := by
    unfold safety_gap attendance_days_back
    rw [max_self]
    omega
  have hdays : d ∈ date_range (today - 10 + 1) today :=
    mem_date_range.mpr ⟨by omega, h2⟩
  cases ep with
  | attendance =>
    simp only [endpoint_covers, recover_days]
    rw [if_pos hcond, Bool.or_eq_true]
    exact Or.inr (List.elem_eq_true_of_mem hdays)
  | marksCurrent =>
    simp only [endpoint_covers, recover_days]
    rw [if_pos hcond, Bool.or_eq_true]
    exact Or.inr (List.elem_eq_true_of_mem hdays)
  | marksFinal =>
    simp [endpoint_covers]
  | schedule =>
    simp only [endpoint_covers]
    rw [if_pos hcond, Bool.or_eq_true]
    refine Or.inr ?_
    rw [List.any_eq_true]
    refine ⟨monday_of d, ?_, ?_⟩
    · unfold mondays_between
      rw [List.mem_map]
      refine ⟨((monday_of d - monday_of (today - 10 + 1)) / 7).toNat, ?_, ?_⟩
      · rw [List.mem_range]
        unfold monday_of weekday
        omega
      · unfold monday_of weekday
        omega
    · rw [Bool.and_eq_true, decide_eq_true_eq, decide_eq_true_eq]
      unfold monday_of weekday
      omega

/-- Witness for C5: the amended theorem applied at `today = 100`, `d = 95`,
endpoint attendance. -/
theorem recovery_completeness_witness :
    ((100 : Int) - 9 ≤ 95 ∧ (95 : Int) ≤ 100) ∧
    endpoint_covers RawEndpoint.attendance 100 (some (100 - 10)) 95 = true :=
  ⟨⟨by decide, by decide⟩,
   recovery_completeness 100 95 (by decide) (by decide) RawEndpoint.attendance
     (by decide)⟩

/-- The loop body of `core_common.chunk_window` for a positive chunk size:
starting at `cur`, yield `(cur, min(cur + chunk_days - 1, d_to))` and
continue one day after the chunk's end, while `cur <= d_to`. -/
def chunk_window_go (d_to chunk_days : Int) (h : 0 < chunk_days) (cur : Int) :
    List (Int × Int) :=
  if hc : cur ≤ d_to then
    (cur, min (cur + chunk_days - 1) d_to) ::
      chunk_window_go d_to chunk_days h (min (cur + chunk_days - 1) d_to + 1)
  else []
termination_by (d_to + 1 - cur).toNat
decreasing_by omega

/-- Model of `core_common.chunk_window`: split the inclusive window `d_from..d_to`
into chunks of at most `chunk_days` days; for `chunk_days <= 0` yield the
whole window as a single pair. -/
def chunk_window (d_from d_to chunk_days : Int) : List (Int × Int) :=
  if h : chunk_days ≤ 0 then [(d_from, d_to)]
  else chunk_window_go d_to chunk_days (by omega) d_from

theorem chunk_window_go_spec (d_to chunk_days : Int) (h : 0 < chunk_days)
    (cur : Int) (hcur : cur ≤ d_to) :
    (∃ rest, chunk_window_go d_to chunk_days h cur =
        (cur, min (cur + chunk_days - 1) d_to) :: rest) ∧
    ((chunk_window_go d_to chunk_days h cur).getLast?.map Prod.snd = some d_to) ∧
    List.Chain' (fun p q : Int × Int => q.1 = p.2 + 1)
      (chunk_window_go d_to chunk_days h cur) ∧
    (∀ p ∈ chunk_window_go d_to chunk_days h cur,
      p.1 ≤ p.2 ∧ p.2 - p.1 + 1 ≤ chunk_days) := by
  rw [chunk_window_go]
  rw [dif_pos hcur]
  by_cases hnext : min (cur + chunk_days - 1) d_to + 1 ≤ d_to
  · obtain ⟨⟨rest2, hr2⟩, hlast, hchain, hbounds⟩ :=
      chunk_window_go_spec d_to chunk_days h _ hnext
    refine ⟨⟨_, rfl⟩, ?_, ?_, ?_⟩
    · rw [hr2, List.getLast?_cons_cons, ← hr2]
      exact hlast
    · rw [hr2]
      refine List.chain'_cons.mpr ⟨rfl, ?_⟩
      rw [← hr2]
      exact hchain
    · intro p hp
      rcases List.mem_cons.mp hp with rfl | hp2
      · constructor <;> omega
      · exact hbounds p hp2
  · have hmineq : min (cur + chunk_days - 1) d_to = d_to := by omega
    rw [hmineq]
    have htail : chunk_window_go d_to chunk_days h (d_to + 1) = [] := by
      rw [chunk_window_go, dif_neg (by omega)]
    rw [htail]
    refine ⟨⟨[], rfl⟩, by simp, List.chain'_singleton _, ?_⟩
    intro p hp
    rcases List.mem_cons.mp hp with rfl | hp2
    · exact ⟨hcur, by omega⟩
    · cases hp2
termination_by (d_to + 1 - cur).toNat
decreasing_by omega

/-- C10: for `d_from <= d_to`, `chunk_window` with a positive `chunk_days`
partitions the window: the first chunk starts at `d_from`, the last ends at
`d_to`, each successive chunk starts exactly one day after the previous one
ends, and every chunk is a well-formed window spanning at most `chunk_days`
days; with `chunk_days <= 0` exactly the single pair `(d_from, d_to)` is
yielded. -/
theorem chunk_window_spec (d_from d_to chunk_days : Int) (hle : d_from ≤ d_to) :
    (chunk_days ≤ 0 → chunk_window d_from d_to chunk_days = [(d_from, d_to)]) ∧
    (0 < chunk_days →
      ((chunk_window d_from d_to chunk_days).head?.map Prod.fst = some d_from) ∧
      ((chunk_window d_from d_to chunk_days).getLast?.map Prod.snd = some d_to) ∧
      List.Chain' (fun p q : Int × Int => q.1 = p.2 + 1)
        (chunk_window d_from d_to chunk_days) ∧
      ∀ p ∈ chunk_window d_from d_to chunk_days,
        p.1 ≤ p.2 ∧ p.2 - p.1 + 1 ≤ chunk_days) := by
  constructor
  · intro h0
    unfold chunk_window
    rw [dif_pos h0]
  · intro hpos
    unfold chunk_window
    rw [dif_neg (by omega)]
    obtain ⟨⟨rest, hr⟩, hlast, hchain, hbounds⟩ :=
      chunk_window_go_spec d_to chunk_days hpos d_from hle
    refine ⟨?_, hlast, hchain, hbounds⟩
    rw [hr]
    rfl

/-- Witness for C10: the theorem applied to the window `1..10` with chunk
size 4. -/
theorem chunk_window_spec_witness :
    (1 : Int) ≤ 10 ∧
    (((4 : Int) ≤ 0 → chunk_window 1 10 4 = [(1, 10)]) ∧
     ((0 : Int) < 4 →
       ((chunk_window 1 10 4).head?.map Prod.fst = some 1) ∧
       ((chunk_window 1 10 4).getLast?.map Prod.snd = some 10) ∧
       List.Chain' (fun p q : Int × Int => q.1 = p.2 + 1) (chunk_window 1 10 4) ∧
       ∀ p ∈ chunk_window 1 10 4, p.1 ≤ p.2 ∧ p.2 - p.1 + 1 ≤ 4)) :=
  ⟨by decide, chunk_window_spec 1 10 4 (by decide)⟩
